import Mathlib

/-!
Shallow embedding of the audio decoding pipeline of the repository
(`decodeBase64` and `decodeAudioData` in the service module).

Bytes are modelled as natural numbers; `Uint8Array` element storage wraps
modulo 256, which the embedding mirrors where a byte is interpreted.
Audio samples are modelled as rationals: every value produced by the code
is an integer in [-32768, 32767] divided by 32768.0, which is exact in
IEEE double and in IEEE single precision (numerator fits in 16 bits,
denominator is 2^15), so the rational model loses nothing.
-/

namespace AICaption

/-! ### Base64 (model of the platform atob primitive, WHATWG forgiving-base64) -/

def base64Alphabet : List Char :=
  "ABCDEFGHIJKLMNOPQRSTUVWXYZabcdefghijklmnopqrstuvwxyz0123456789+/".toList

def b64Index (c : Char) : Option Nat :=
  base64Alphabet.findIdx? (fun a => a = c)

def isAsciiWhitespace (c : Char) : Bool :=
  c = '\t' || c = '\n' || c = '\x0c' || c = '\r' || c = ' '

/-- Step 2 of forgiving-base64 decode: if the length is a multiple of 4,
remove one or two trailing padding characters. -/
def dropTrailingPad (l : List Char) : List Char :=
  if l.length % 4 = 0 then
    match l.reverse with
    | c1 :: c2 :: rest =>
        if c1 = '=' then
          if c2 = '=' then rest.reverse else (c2 :: rest).reverse
        else l
    | [c1] => if c1 = '=' then [] else l
    | [] => l
  else l

/-- Reassemble 6-bit groups into bytes; a trailing group of 2 or 3 sextets
yields 1 or 2 bytes, leftover bits are discarded (forgiving-base64). -/
def sextetsToBytes : List Nat → List Nat
  | a :: b :: c :: d :: rest =>
      (a * 4 + b / 16) :: ((b % 16) * 16 + c / 4) :: ((c % 4) * 64 + d) ::
        sextetsToBytes rest
  | [a, b] => [a * 4 + b / 16]
  | [a, b, c] => [a * 4 + b / 16, (b % 16) * 16 + c / 4]
  | _ => []

/-- Alphabet lookup over a whole string; any invalid character fails the
decode (the InvalidCharacterError of atob). -/
def lookupSextets : List Char → Option (List Nat)
  | [] => some []
  | c :: t =>
    match b64Index c, lookupSextets t with
    | some v, some vs => some (v :: vs)
    | _, _ => none

/-- Model of the platform `atob`: WHATWG forgiving-base64 decode.
`none` models the InvalidCharacterError exception. The returned byte list
models the code points of the binary string, which `decodeBase64` copies
one by one into a `Uint8Array`. -/
def atob (s : String) : Option (List Nat) :=
  let stripped := s.data.filter (fun c => !isAsciiWhitespace c)
  let cs := dropTrailingPad stripped
  if cs.length % 4 = 1 then none
  else (lookupSextets cs).map sextetsToBytes

/-- Embedding of `decodeBase64`.  The JS parameter is a string, but callers
may pass `null`/`undefined`; `none` models those.  A falsy input (null,
undefined, empty string) yields the empty byte sequence; otherwise `atob`
decodes, and each code point of the binary string becomes one byte. -/
def decodeBase64 (base64 : Option String) : Option (List Nat) :=
  match base64 with
  | none => some []
  | some s => if s = "" then some [] else atob s

/-! ### PCM interpretation (`decodeAudioData`) -/

/-- Little-endian signed 16-bit read of a byte pair, as `Int16Array` does
on a little-endian platform.  `% 256` mirrors `Uint8Array` storage. -/
def toInt16 (lo hi : Nat) : Int :=
  let u : Nat := lo % 256 + 256 * (hi % 256)
  if u < 32768 then (u : Int) else (u : Int) - 65536

/-- The `Int16Array` view: consecutive byte pairs as little-endian signed
16-bit integers; a trailing unpaired byte forms no sample. -/
def bytesToInt16 : List Nat → List Int
  | lo :: hi :: rest => toInt16 lo hi :: bytesToInt16 rest
  | _ => []

/-- Model of `AudioBuffer`: per-channel sample arrays plus metadata. -/
structure AudioBuffer where
  sampleRate : Nat
  numberOfChannels : Nat
  channels : List (List ℚ)
deriving Repr, DecidableEq

/-- Model of `ctx.createBuffer(numChannels, length, sampleRate)`: each of
the `numChannels` channel arrays is zero-initialised with `length` frames.
The Web Audio API mandates a NotSupportedError when `length = 0`; that
error is reachable in this program (a non-empty payload with fewer
complete samples than channels) and is modelled as `none`.  The
platform's validation of the channel-count and sample-rate arguments is
not exercised by this program's callers and is left unmodelled. -/
def createBuffer (numChannels length sampleRate : Nat) : Option AudioBuffer :=
  if length = 0 then none
  else some
    { sampleRate := sampleRate
      numberOfChannels := numChannels
      channels := List.replicate numChannels (List.replicate length 0) }

/-- Embedding of `decodeAudioData`.
The source loops `for (i = 0; i < frameCount; i++)` with the unfloored
quotient `dataInt16.length / numChannels` as bound; iterations past
`Math.floor(frameCount)` write out of bounds of the `Float32Array`, which
JavaScript silently discards, so the observable fill is exactly the
frames `i < Math.floor(frameCount)` written here.  Every in-range write
is `dataInt16[i * numChannels + channel] / 32768.0`.
When `Math.floor(frameCount) = 0` — a non-empty payload holding fewer
complete 16-bit samples than one full frame — `ctx.createBuffer` throws
NotSupportedError and no buffer is produced: the result is `none` and the
promise rejects. -/
def decodeAudioData (data : List Nat) (sampleRate : Nat := 24000)
    (numChannels : Nat := 1) : Option AudioBuffer :=
  if data.length = 0 then createBuffer numChannels 1 sampleRate
  else
    let byteLength := data.length
    let bufferToUse := if byteLength % 2 = 0 then data
      else data.take (byteLength - 1)
    let dataInt16 := bytesToInt16 bufferToUse
    let frameCount := dataInt16.length / numChannels
    (createBuffer numChannels frameCount sampleRate).map (fun buffer =>
      { buffer with
        channels := (List.range numChannels).map (fun channel =>
          (List.range frameCount).map (fun i =>
            ((dataInt16.getD (i * numChannels + channel) 0 : ℤ) : ℚ)
              / 32768)) })

/-- The two steps composed, as the playback path of the app does:
`decodeAudioData(decodeBase64(base64Audio), ctx, sampleRate, numChannels)`.
`none` models a raised exception: the atob decode error, or the
NotSupportedError raised by zero-length buffer creation. -/
def decodePipeline (base64 : Option String) (sampleRate numChannels : Nat) :
    Option AudioBuffer :=
  (decodeBase64 base64).bind
    (fun bytes => decodeAudioData bytes sampleRate numChannels)

/-! ### Reference encoders (for the round-trip property) -/

/-- Standard base64 encoding of a byte sequence, with `=` padding, as any
producer of the payload (and the test suite of the spec) would emit. -/
def base64EncodeList : List Nat → List Char
  | a :: b :: c :: rest =>
      base64Alphabet.getD (a / 4) 'A' ::
      base64Alphabet.getD ((a % 4) * 16 + b / 16) 'A' ::
      base64Alphabet.getD ((b % 16) * 4 + c / 64) 'A' ::
      base64Alphabet.getD (c % 64) 'A' ::
      base64EncodeList rest
  | [a, b] =>
      [base64Alphabet.getD (a / 4) 'A',
       base64Alphabet.getD ((a % 4) * 16 + b / 16) 'A',
       base64Alphabet.getD ((b % 16) * 4) 'A', '=']
  | [a] =>
      [base64Alphabet.getD (a / 4) 'A',
       base64Alphabet.getD ((a % 4) * 16) 'A', '=', '=']
  | [] => []

def encodeBase64 (bytes : List Nat) : String :=
  String.mk (base64EncodeList bytes)

/-- A signed 16-bit integer as two little-endian bytes. -/
def int16ToBytes (v : Int) : List Nat :=
  let u : Nat := (v % 65536).toNat
  [u % 256, u / 256]

def int16sToBytes (vs : List Int) : List Nat :=
  (vs.map int16ToBytes).flatten

/-- The sextet values underlying `base64EncodeList`, before the alphabet
lookup and padding (proof-side companion of the encoder). -/
def encSextets : List Nat → List Nat
  | a :: b :: c :: rest =>
      a / 4 :: ((a % 4) * 16 + b / 16) :: ((b % 16) * 4 + c / 64) :: c % 64 ::
        encSextets rest
  | [a, b] => [a / 4, (a % 4) * 16 + b / 16, (b % 16) * 4]
  | [a] => [a / 4, (a % 4) * 16]
  | [] => []

/-- The padding characters `base64EncodeList` appends. -/
def padOf (bytes : List Nat) : List Char :=
  match bytes.length % 3 with
  | 1 => ['=', '=']
  | 2 => ['=']
  | _ => []

/-- The length-normalized byte buffer: `data.buffer` on even byte length,
`data.buffer.slice(0, byteLength - 1)` on odd byte length. -/
def normalizedBytes (data : List Nat) : List Nat :=
  if data.length % 2 = 0 then data else data.take (data.length - 1)

/-! ### Basic lemmas -/

theorem toInt16_range (lo hi : Nat) :
    -32768 ≤ toInt16 lo hi ∧ toInt16 lo hi ≤ 32767 := by
  have h1 : lo % 256 < 256 := Nat.mod_lt _ (by omega)
  have h2 : hi % 256 < 256 := Nat.mod_lt _ (by omega)
  simp only [toInt16]
  split <;> constructor <;> omega

theorem bytesToInt16_length : ∀ l : List Nat, (bytesToInt16 l).length = l.length / 2
  | [] => by simp [bytesToInt16]
  | [_] => by simp [bytesToInt16]
  | lo :: hi :: rest => by
      have ih := bytesToInt16_length rest
      simp only [bytesToInt16, List.length_cons, ih]
      omega

theorem bytesToInt16_getD : ∀ (l : List Nat) (k : Nat), 2 * k + 1 < l.length →
    (bytesToInt16 l).getD k 0 = toInt16 (l.getD (2 * k) 0) (l.getD (2 * k + 1) 0)
  | [], _, h => by simp at h
  | [_], _, h => by
      simp only [List.length_cons, List.length_nil] at h; omega
  | lo :: hi :: rest, 0, _ => by simp [bytesToInt16]
  | lo :: hi :: rest, k + 1, h => by
      have hk : 2 * k + 1 < rest.length := by
        simp only [List.length_cons] at h; omega
      have ih := bytesToInt16_getD rest k hk
      have e2 : 2 * (k + 1) = 2 * k + 1 + 1 := by ring
      simp only [bytesToInt16, e2, List.getD_cons_succ, ih]

theorem bytesToInt16_mem : ∀ (l : List Nat) (s : Int), s ∈ bytesToInt16 l →
    -32768 ≤ s ∧ s ≤ 32767
  | [], s, h => by simp [bytesToInt16] at h
  | [_], s, h => by simp [bytesToInt16] at h
  | lo :: hi :: rest, s, h => by
      rcases (List.mem_cons).1 h with h1 | h2
      · exact h1 ▸ toInt16_range lo hi
      · exact bytesToInt16_mem rest s h2

theorem bytesToInt16_getD_range (l : List Nat) (k : Nat) :
    -32768 ≤ (bytesToInt16 l).getD k 0 ∧ (bytesToInt16 l).getD k 0 ≤ 32767 := by
  rcases h : (bytesToInt16 l)[k]? with _ | s
  · simp [List.getD_eq_getElem?_getD, h]
  · have hm : s ∈ bytesToInt16 l := List.getElem?_mem h
    have := bytesToInt16_mem l s hm
    simp [List.getD_eq_getElem?_getD, h, this]

theorem index_lt {i c n sc : Nat} (hi : i < sc / n) (hc : c < n) :
    i * n + c < sc := by
  have h1 : (i + 1) * n ≤ sc / n * n := Nat.mul_le_mul_right _ hi
  have h2 : sc / n * n ≤ sc := Nat.div_mul_le_self _ _
  have h3 : (i + 1) * n = i * n + n := Nat.succ_mul _ _
  omega

theorem normalizedBytes_length (data : List Nat) :
    (normalizedBytes data).length = data.length - data.length % 2 := by
  unfold normalizedBytes
  split
  · omega
  · simp only [List.length_take]; omega

theorem decodeAudioData_of_ne_nil (data : List Nat) (sr nc : Nat)
    (h : data ≠ [])
    (hfc : (bytesToInt16 (normalizedBytes data)).length / nc ≠ 0) :
    decodeAudioData data sr nc =
      some
        { sampleRate := sr
          numberOfChannels := nc
          channels := (List.range nc).map (fun channel =>
            (List.range
                ((bytesToInt16 (normalizedBytes data)).length / nc)).map
              (fun i =>
                (((bytesToInt16 (normalizedBytes data)).getD
                    (i * nc + channel) 0 : ℤ) : ℚ) / 32768)) } := by
  have h0 : ¬ data.length = 0 := by simpa [List.length_eq_zero] using h
  have hfc2 : ¬ (bytesToInt16 (if data.length % 2 = 0 then data
      else data.take (data.length - 1))).length / nc = 0 := hfc
  simp only [decodeAudioData, createBuffer]
  rw [if_neg h0, if_neg hfc2, Option.map_some']
  rfl

theorem decodeAudioData_none_of_zero_frames (data : List Nat) (sr nc : Nat)
    (h : data ≠ [])
    (hfc : (bytesToInt16 (normalizedBytes data)).length / nc = 0) :
    decodeAudioData data sr nc = none := by
  have h0 : ¬ data.length = 0 := by simpa [List.length_eq_zero] using h
  have hfc2 : (bytesToInt16 (if data.length % 2 = 0 then data
      else data.take (data.length - 1))).length / nc = 0 := hfc
  simp only [decodeAudioData, createBuffer]
  rw [if_neg h0, if_pos hfc2, Option.map_none']

theorem decodeAudioData_eq_of_normalized (d1 d2 : List Nat) (sr nc : Nat)
    (h1 : d1 ≠ []) (h2 : d2 ≠ [])
    (hn : normalizedBytes d1 = normalizedBytes d2) :
    decodeAudioData d1 sr nc = decodeAudioData d2 sr nc := by
  have h01 : ¬ d1.length = 0 := by simpa [List.length_eq_zero] using h1
  have h02 : ¬ d2.length = 0 := by simpa [List.length_eq_zero] using h2
  have hn2 : (if d1.length % 2 = 0 then d1 else d1.take (d1.length - 1)) =
      (if d2.length % 2 = 0 then d2 else d2.take (d2.length - 1)) := hn
  simp only [decodeAudioData]
  rw [if_neg h01, if_neg h02, hn2]

theorem sampleCount_eq (data : List Nat) :
    (bytesToInt16 (normalizedBytes data)).length = data.length / 2 := by
  rw [bytesToInt16_length, normalizedBytes_length]
  omega

theorem normalizedBytes_getD (data : List Nat) (j : Nat)
    (hj : j < (normalizedBytes data).length) :
    (normalizedBytes data).getD j 0 = data.getD j 0 := by
  unfold normalizedBytes at *
  split at hj
  · rw [if_pos (by assumption)]
  · rw [if_neg (by assumption)]
    rw [List.getD_eq_getElem?_getD, List.getD_eq_getElem?_getD,
      List.getElem?_take]
    rw [if_pos]
    simp only [List.length_take] at hj
    omega

theorem getD_map_range {α : Type} (f : Nat → α) (n k : Nat) (d : α)
    (hk : k < n) : ((List.range n).map f).getD k d = f k := by
  rw [List.getD_eq_getElem?_getD, List.getElem?_map, List.getElem?_range hk]
  simp

theorem pcm_bounds (s : Int) (h1 : -32768 ≤ s) (h2 : s ≤ 32767) :
    -1 ≤ (s : ℚ) / 32768 ∧ (s : ℚ) / 32768 < 1 := by
  have h1q : (-32768 : ℚ) ≤ (s : ℚ) := by exact_mod_cast h1
  have h2q : (s : ℚ) ≤ 32767 := by exact_mod_cast h2
  constructor
  · rw [le_div_iff₀ (by norm_num : (0 : ℚ) < 32768)]
    linarith
  · rw [div_lt_iff₀ (by norm_num : (0 : ℚ) < 32768)]
    linarith

/-! ### Claim theorems -/

/-- C1, counterexample: on the empty byte input the claimed allocation
length `frameCount = floor(sampleCount / numChannels) = 0` does not hold:
the guard allocates one frame of silence instead, so the claim as stated
over every byte input is false at `data = []`, `numChannels = 1`. -/
theorem c1_counterexample :
    (decodeAudioData [] 24000 1).map
        (fun buf => (buf.channels.getD 0 []).length) ≠
      some (([] : List Nat).length / 2 / 1) := by decide

/-- C1 (amended to inputs holding at least one complete frame): for
`numChannels ≥ 1` and
`frameCount = floor(floor(byteLength / 2) / numChannels) ≥ 1`,
`decodeAudioData` returns a buffer, allocating one channel array of
length `frameCount` per channel, and output channel `c` at frame `i` is
the 16-bit little-endian sample at interleaved index
`i * numChannels + c`, divided by 32768.  (When `frameCount = 0` no such
arrays exist: the empty input yields one silent frame, and a non-empty
input with fewer complete samples than one frame produces no buffer at
all, since zero-length buffer creation fails.) -/
theorem c1_deinterleave (data : List Nat) (sr nc : Nat) (hnc : 1 ≤ nc)
    (hfc : 1 ≤ data.length / 2 / nc) :
    ∃ buf, decodeAudioData data sr nc = some buf ∧
      buf.channels.length = nc ∧
      (∀ c, c < nc → (buf.channels.getD c []).length =
        data.length / 2 / nc) ∧
      (∀ c i, c < nc → i < data.length / 2 / nc →
        (buf.channels.getD c []).getD i 0 =
          ((toInt16 (data.getD (2 * (i * nc + c)) 0)
              (data.getD (2 * (i * nc + c) + 1) 0) : ℤ) : ℚ) / 32768) := by
  have hsc := sampleCount_eq data
  have hne : data ≠ [] := by
    intro he
    rw [he] at hfc
    simp at hfc
  have hfc' : (bytesToInt16 (normalizedBytes data)).length / nc ≠ 0 := by
    rw [hsc]
    omega
  refine ⟨_, decodeAudioData_of_ne_nil data sr nc hne hfc', ?_, ?_, ?_⟩
  · simp
  · intro c hc
    show (((List.range nc).map _).getD c []).length = _
    rw [getD_map_range _ _ _ _ hc]
    simp [hsc]
  · intro c i hc hi
    have hi' : i < (bytesToInt16 (normalizedBytes data)).length / nc := by
      rw [hsc]
      exact hi
    show ((((List.range nc).map _).getD c []).getD i 0) = _
    rw [getD_map_range _ _ _ _ hc, getD_map_range _ _ _ _ hi']
    have hk : i * nc + c < (bytesToInt16 (normalizedBytes data)).length :=
      index_lt hi' hc
    rw [bytesToInt16_length] at hk
    have hk2 : 2 * (i * nc + c) + 1 < (normalizedBytes data).length := by
      omega
    rw [bytesToInt16_getD _ _ hk2]
    rw [normalizedBytes_getD _ _ (by omega),
      normalizedBytes_getD _ _ (by omega)]

/-- C1 witness at a concrete one-frame input. -/
theorem c1_witness :
    ∃ buf, decodeAudioData [52, 18] 24000 1 = some buf ∧
      buf.channels.length = 1 ∧
      (∀ c, c < 1 → (buf.channels.getD c []).length =
        ([52, 18] : List Nat).length / 2 / 1) ∧
      (∀ c i, c < 1 → i < ([52, 18] : List Nat).length / 2 / 1 →
        (buf.channels.getD c []).getD i 0 =
          ((toInt16 (([52, 18] : List Nat).getD (2 * (i * 1 + c)) 0)
              (([52, 18] : List Nat).getD (2 * (i * 1 + c) + 1) 0) : ℤ) : ℚ)
            / 32768) :=
  c1_deinterleave [52, 18] 24000 1 (by decide) (by decide)

/-- C2: decoding a null/undefined payload or the empty string yields, at
every requested sample rate and channel count, a successfully decoded
buffer with exactly one all-zero frame per channel carrying that sample
rate and channel count. -/
theorem c2_empty_input (sr nc : Nat) :
    decodePipeline none sr nc = createBuffer nc 1 sr ∧
    decodePipeline (some "") sr nc = createBuffer nc 1 sr ∧
    ∃ buf, createBuffer nc 1 sr = some buf ∧
      buf.channels = List.replicate nc [0] ∧
      buf.sampleRate = sr ∧
      buf.numberOfChannels = nc ∧
      buf.channels.length = nc ∧
      ∀ ch ∈ buf.channels, ch = [0] := by
  refine ⟨rfl, rfl,
    { sampleRate := sr
      numberOfChannels := nc
      channels := List.replicate nc [0] }, rfl, rfl, rfl, rfl, by simp, ?_⟩
  intro ch hch
  exact List.eq_of_mem_replicate hch

/-- C3: on a decoded byte buffer of odd length the trailing byte is
dropped before pairing, so the value of that byte affects no output
sample: replacing it changes nothing in the decoded buffer. -/
theorem c3_trailing_byte_dropped (data : List Nat) (b bnew sr nc : Nat)
    (h : data.length % 2 = 0) :
    (data ++ [b]).length % 2 = 1 ∧
    decodeAudioData (data ++ [b]) sr nc =
      decodeAudioData (data ++ [bnew]) sr nc := by
  have hlen : ∀ x : Nat, (data ++ [x]).length = data.length + 1 := by
    intro x; simp
  have hnorm : ∀ x : Nat, normalizedBytes (data ++ [x]) = data := by
    intro x
    unfold normalizedBytes
    rw [if_neg (by rw [hlen]; omega)]
    rw [hlen]
    simp only [Nat.add_sub_cancel]
    exact List.take_left data [x]
  refine ⟨by rw [hlen]; omega, ?_⟩
  exact decodeAudioData_eq_of_normalized _ _ sr nc (by simp) (by simp)
    ((hnorm b).trans (hnorm bnew).symm)

/-- C3 witness: a sentinel 255 as the dropped trailing byte decodes
identically to a zero trailing byte. -/
theorem c3_witness :
    ([7, 8] ++ [255]).length % 2 = 1 ∧
    decodeAudioData ([7, 8] ++ [255]) 24000 1 =
      decodeAudioData ([7, 8] ++ [0]) 24000 1 :=
  c3_trailing_byte_dropped [7, 8] 255 0 24000 1 (by decide)

/-- C4: seven raw bytes at two channels decode to exactly one frame per
channel; the third complete 16-bit sample (bytes 4 and 5) and the dropped
seventh byte appear in neither channel array. -/
theorem c4_seven_bytes (b0 b1 b2 b3 b4 b5 b6 sr : Nat) :
    decodeAudioData [b0, b1, b2, b3, b4, b5, b6] sr 2 =
      some
        { sampleRate := sr
          numberOfChannels := 2
          channels := [[((toInt16 b0 b1 : ℤ) : ℚ) / 32768],
                       [((toInt16 b2 b3 : ℤ) : ℚ) / 32768]] } := by
  have hfc : (bytesToInt16
      (normalizedBytes [b0, b1, b2, b3, b4, b5, b6])).length / 2 ≠ 0 := by
    rw [bytesToInt16_length, normalizedBytes_length]
    simp
  rw [decodeAudioData_of_ne_nil _ _ _ (by simp) hfc]
  norm_num [normalizedBytes, bytesToInt16, List.take, List.range_succ]

/-- C8: the decode pipeline is deterministic: equal input string, sample
rate and channel count give equal decoded buffers (the embedding is a
pure function of exactly these three inputs, so no other state is read). -/
theorem c8_deterministic (b1 b2 : Option String) (sr1 sr2 nc1 nc2 : Nat)
    (hb : b1 = b2) (hsr : sr1 = sr2) (hnc : nc1 = nc2) :
    decodePipeline b1 sr1 nc1 = decodePipeline b2 sr2 nc2 := by
  subst hb
  subst hsr
  subst hnc
  rfl

/-- C8 witness at a concrete invocation pair. -/
theorem c8_witness :
    decodePipeline (some "QQ==") 24000 1 = decodePipeline (some "QQ==") 24000 1 :=
  c8_deterministic (some "QQ==") (some "QQ==") 24000 24000 1 1 rfl rfl rfl

/-- C9, counterexample: on the empty input the produced frame count is 1
while the length-normalized buffer holds 0 complete samples, so
`frameCount * numChannels ≤ sampleCount` fails; the claim as stated over
every input is false at the empty input with one channel. -/
theorem c9_counterexample :
    decodeAudioData [] 24000 1 =
      some { sampleRate := 24000, numberOfChannels := 1,
             channels := [[0]] } ∧
    ¬ ((([[0]] : List (List ℚ)).getD 0 []).length * 1 ≤
        (bytesToInt16 (normalizedBytes [])).length) := by decide

/-- C9 (amended to non-empty inputs, `numChannels ≥ 1`, over the produced
buffer): whenever a buffer is produced, its frame count satisfies
`frameCount * numChannels ≤ sampleCount ≤ frameCount * numChannels + (numChannels - 1)`
where `sampleCount` is the number of complete 16-bit samples in the
length-normalized byte buffer. -/
theorem c9_frame_sample_invariant (data : List Nat) (sr nc : Nat)
    (hne : data ≠ []) (hnc : 1 ≤ nc) :
    ∀ buf, decodeAudioData data sr nc = some buf →
      (buf.channels.getD 0 []).length * nc ≤
        (bytesToInt16 (normalizedBytes data)).length ∧
      (bytesToInt16 (normalizedBytes data)).length ≤
        (buf.channels.getD 0 []).length * nc + (nc - 1) := by
  intro buf hbuf
  by_cases hfc : (bytesToInt16 (normalizedBytes data)).length / nc = 0
  · rw [decodeAudioData_none_of_zero_frames data sr nc hne hfc] at hbuf
    exact absurd hbuf (by simp)
  · rw [decodeAudioData_of_ne_nil data sr nc hne hfc,
      Option.some.injEq] at hbuf
    have hlen0 : (buf.channels.getD 0 []).length =
        (bytesToInt16 (normalizedBytes data)).length / nc := by
      rw [← hbuf]
      rw [getD_map_range _ _ _ _ (show 0 < nc by omega)]
      simp
    rw [hlen0]
    set sc := (bytesToInt16 (normalizedBytes data)).length with hsc
    have h1 := Nat.div_mul_le_self sc nc
    have h2 := Nat.div_add_mod sc nc
    have h3 : sc % nc < nc := Nat.mod_lt _ (by omega)
    have h4 : nc * (sc / nc) = sc / nc * nc := Nat.mul_comm _ _
    omega

/-- C9 witness: three samples at two channels give one frame. -/
theorem c9_witness :
    ∃ buf, decodeAudioData [1, 2, 3, 4, 5, 6] 24000 2 = some buf ∧
      (buf.channels.getD 0 []).length * 2 ≤
        (bytesToInt16 (normalizedBytes [1, 2, 3, 4, 5, 6])).length ∧
      (bytesToInt16 (normalizedBytes [1, 2, 3, 4, 5, 6])).length ≤
        (buf.channels.getD 0 []).length * 2 + (2 - 1) := by
  refine ⟨_, decodeAudioData_of_ne_nil [1, 2, 3, 4, 5, 6] 24000 2 (by decide)
    (by decide), ?_⟩
  exact c9_frame_sample_invariant [1, 2, 3, 4, 5, 6] 24000 2 (by decide)
    (by decide) _ (decodeAudioData_of_ne_nil [1, 2, 3, 4, 5, 6] 24000 2
      (by decide) (by decide))

/-- C10, counterexample: two bytes at two channels hold fewer complete
samples than one frame, and the decode produces no buffer at all —
zero-length buffer creation fails — rather than a buffer with zero
frames per channel. -/
theorem c10_counterexample :
    decodeAudioData [1, 2] 24000 2 = none ∧
    (decodeAudioData [1, 2] 24000 2).map (fun buf => buf.channels) ≠
      some (List.replicate 2 []) := by decide

/-- C10 (corrected): for every non-empty byte input whose number of
complete 16-bit samples is strictly less than `numChannels`, the decode
produces NO buffer: the frame count floors to 0 and zero-length buffer
creation fails with NotSupportedError.  The 1-silent-frame minimum
applies only to the empty byte input, and no 0-frame buffer is ever
produced. -/
theorem c10_short_input_no_buffer (data : List Nat) (sr nc : Nat)
    (hne : data ≠ [])
    (hlt : (bytesToInt16 (normalizedBytes data)).length < nc) :
    decodeAudioData data sr nc = none :=
  decodeAudioData_none_of_zero_frames data sr nc hne (Nat.div_eq_of_lt hlt)

/-- C10 witness: two bytes at two channels produce no buffer. -/
theorem c10_witness : decodeAudioData [1, 2] 8000 2 = none :=
  c10_short_input_no_buffer [1, 2] 8000 2 (by decide) (by decide)

/-- C7: every consecutive byte pair of the length-normalized buffer reads
little-endian as a signed 16-bit integer in [-32768, 32767], and every
sample of a produced buffer is such an integer divided by 32768, hence
lies in the range [-1, 1). -/
theorem c7_sample_range (data : List Nat) (sr nc : Nat) :
    (∀ s ∈ bytesToInt16 (normalizedBytes data), -32768 ≤ s ∧ s ≤ 32767) ∧
    ∀ buf, decodeAudioData data sr nc = some buf →
      ∀ ch ∈ buf.channels, ∀ x ∈ ch,
        (∃ s : Int, -32768 ≤ s ∧ s ≤ 32767 ∧ x = (s : ℚ) / 32768) ∧
        -1 ≤ x ∧ x < 1 := by
  refine ⟨fun s hs => bytesToInt16_mem _ s hs, ?_⟩
  intro buf hbuf ch hch x hx
  by_cases hne : data = []
  · subst hne
    have hb2 : some ({ sampleRate := sr,
                       numberOfChannels := nc,
                       channels :=
                         List.replicate nc (List.replicate 1 (0 : ℚ)) } :
                      AudioBuffer) = some buf := hbuf
    rw [Option.some.injEq] at hb2
    rw [← hb2] at hch
    replace hch : ch ∈ List.replicate nc (List.replicate 1 (0 : ℚ)) := hch
    have hc := List.eq_of_mem_replicate hch
    subst hc
    have hx0 : x = 0 := List.eq_of_mem_replicate hx
    subst hx0
    exact ⟨⟨0, by norm_num, by norm_num, by norm_num⟩, by norm_num,
      by norm_num⟩
  · by_cases hfc : (bytesToInt16 (normalizedBytes data)).length / nc = 0
    · rw [decodeAudioData_none_of_zero_frames data sr nc hne hfc] at hbuf
      exact absurd hbuf (by simp)
    · rw [decodeAudioData_of_ne_nil data sr nc hne hfc,
        Option.some.injEq] at hbuf
      rw [← hbuf] at hch
      replace hch : ch ∈ (List.range nc).map (fun channel =>
          (List.range ((bytesToInt16 (normalizedBytes data)).length / nc)).map
            (fun i =>
              (((bytesToInt16 (normalizedBytes data)).getD (i * nc + channel) 0
                : ℤ) : ℚ) / 32768)) := hch
      obtain ⟨c, _, rfl⟩ := List.mem_map.1 hch
      obtain ⟨i, _, rfl⟩ := List.mem_map.1 hx
      obtain ⟨hs1, hs2⟩ :=
        bytesToInt16_getD_range (normalizedBytes data) (i * nc + c)
      exact ⟨⟨(bytesToInt16 (normalizedBytes data)).getD (i * nc + c) 0,
        hs1, hs2, rfl⟩, pcm_bounds _ hs1 hs2⟩

/-- C7 witness: the byte pair (0, 128) reads as the sample -32768. -/
theorem c7_witness :
    -32768 ≤ toInt16 0 128 ∧ toInt16 0 128 ≤ 32767 :=
  (c7_sample_range [0, 128] 24000 1).1 (toInt16 0 128) (by decide)

theorem mem_dropTrailingPad {c : Char} {l : List Char}
    (h : c ∈ l) (hne : c ≠ '=') : c ∈ dropTrailingPad l := by
  unfold dropTrailingPad
  split
  · split
    · next c1 c2 rest hrev =>
        have hl : l = rest.reverse ++ [c2, c1] := by
          have h2 := congrArg List.reverse hrev
          simpa using h2
        by_cases h1 : c1 = '='
        · by_cases h2 : c2 = '='
          · rw [if_pos h1, if_pos h2]
            rw [hl] at h
            rcases List.mem_append.1 h with h3 | h3
            · exact h3
            · exfalso
              rcases List.mem_cons.1 h3 with h4 | h4
              · exact hne (h4.trans h2)
              · rcases List.mem_cons.1 h4 with h5 | h5
                · exact hne (h5.trans h1)
                · simp at h5
          · rw [if_pos h1, if_neg h2]
            rw [hl] at h
            have hgoal : (c2 :: rest).reverse = rest.reverse ++ [c2] := by
              simp
            rw [hgoal]
            rcases List.mem_append.1 h with h3 | h3
            · exact List.mem_append.2 (Or.inl h3)
            · rcases List.mem_cons.1 h3 with h4 | h4
              · exact List.mem_append.2 (Or.inr (by simp [h4]))
              · rcases List.mem_cons.1 h4 with h5 | h5
                · exact absurd (h5.trans h1) hne
                · simp at h5
        · rw [if_neg h1]
          exact h
    · next c1 hrev =>
        by_cases h1 : c1 = '='
        · rw [if_pos h1]
          have hl : l = [c1] := by
            have h2 := congrArg List.reverse hrev
            simpa using h2
          rw [hl] at h
          simp at h
          exact absurd (h.trans h1) hne
        · rw [if_neg h1]
          exact h
    · exact h
  · exact h

theorem lookupSextets_eq_none :
    ∀ (l : List Char) (c : Char), c ∈ l → b64Index c = none →
      lookupSextets l = none
  | [], c, h, _ => by simp at h
  | a :: t, c, h, hc => by
      rcases List.mem_cons.1 h with rfl | h2
      · simp [lookupSextets, hc]
      · rcases ha : b64Index a with _ | v
        · simp [lookupSextets, ha]
        · simp [lookupSextets, ha,
            lookupSextets_eq_none t c h2 hc]

theorem lookupSextets_isSome :
    ∀ l : List Char, (∀ c ∈ l, (b64Index c).isSome) →
      ∃ vs, lookupSextets l = some vs
  | [], _ => ⟨[], rfl⟩
  | a :: t, h => by
      rcases ha : b64Index a with _ | v
      · have := h a (List.mem_cons_self a t)
        rw [ha] at this
        simp at this
      · obtain ⟨vs, hvs⟩ :=
          lookupSextets_isSome t (fun c hc => h c (List.mem_cons_of_mem a hc))
        exact ⟨v :: vs, by simp [lookupSextets, ha, hvs]⟩

/-- C5 (amended), with counterexample `c5_counterexample`: an input
containing a character outside the base64 alphabet (such as the
exclamation mark) or with incorrect padding (a leftover length of 1 mod 4
after padding removal, or a padding character remaining in the data)
makes `decodeBase64` fail and the pipeline produce no buffer; when
`decodeBase64` succeeds, the only remaining failure of the pipeline is
the NotSupportedError of zero-length buffer creation, which does not
occur when the payload is empty or holds at least one complete frame;
and a string of valid alphabet characters with acceptable length always
decodes. -/
theorem c5_malformed (s : String) (sr nc : Nat) :
    ('!' ∈ s.data → decodePipeline (some s) sr nc = none) ∧
    ((dropTrailingPad (s.data.filter (fun c => !isAsciiWhitespace c))).length
        % 4 = 1 → decodePipeline (some s) sr nc = none) ∧
    ('=' ∈ dropTrailingPad (s.data.filter (fun c => !isAsciiWhitespace c)) →
      decodePipeline (some s) sr nc = none) ∧
    (∀ bytes, decodeBase64 (some s) = some bytes →
      decodePipeline (some s) sr nc = decodeAudioData bytes sr nc) ∧
    ((dropTrailingPad (s.data.filter (fun c => !isAsciiWhitespace c))).length
        % 4 ≠ 1 →
      (∀ c ∈ dropTrailingPad (s.data.filter (fun c => !isAsciiWhitespace c)),
        (b64Index c).isSome) →
      ∃ bytes, decodeBase64 (some s) = some bytes) ∧
    (∀ bytes, decodeBase64 (some s) = some bytes →
      (bytes = [] ∨
        (bytesToInt16 (normalizedBytes bytes)).length / nc ≠ 0) →
      ∃ buf, decodePipeline (some s) sr nc = some buf) := by
  have hdata : ∀ c : Char, c ∈ s.data → s ≠ "" := by
    intro c hc he
    subst he
    simp at hc
  refine ⟨?_, ?_, ?_, ?_, ?_, ?_⟩
  · intro h
    have hsne := hdata '!' h
    have hmem : '!' ∈ dropTrailingPad
        (s.data.filter (fun c => !isAsciiWhitespace c)) :=
      mem_dropTrailingPad (List.mem_filter.2 ⟨h, by decide⟩) (by decide)
    simp only [decodePipeline, decodeBase64, if_neg hsne, atob]
    by_cases hm : (dropTrailingPad
        (s.data.filter (fun c => !isAsciiWhitespace c))).length % 4 = 1
    · rw [if_pos hm]
      rfl
    · rw [if_neg hm,
        lookupSextets_eq_none _ '!' hmem (by decide)]
      rfl
  · intro hm
    have hsne : s ≠ "" := by
      intro he
      rw [he] at hm
      simp [dropTrailingPad] at hm
    simp only [decodePipeline, decodeBase64, if_neg hsne, atob]
    rw [if_pos hm]
    rfl
  · intro h
    have hsne : s ≠ "" := by
      intro he
      rw [he] at h
      simp [dropTrailingPad] at h
    simp only [decodePipeline, decodeBase64, if_neg hsne, atob]
    by_cases hm : (dropTrailingPad
        (s.data.filter (fun c => !isAsciiWhitespace c))).length % 4 = 1
    · rw [if_pos hm]
      rfl
    · rw [if_neg hm, lookupSextets_eq_none _ '=' h (by decide)]
      rfl
  · intro bytes hb
    show (decodeBase64 (some s)).bind (fun b => decodeAudioData b sr nc) =
      decodeAudioData bytes sr nc
    rw [hb]
    rfl
  · intro hm hall
    by_cases hsne : s = ""
    · exact ⟨[], by simp [decodeBase64, hsne]⟩
    · obtain ⟨vs, hvs⟩ := lookupSextets_isSome _ hall
      refine ⟨sextetsToBytes vs, ?_⟩
      simp only [decodeBase64, if_neg hsne, atob]
      rw [if_neg hm, hvs]
      rfl
  · intro bytes hb hok
    rcases hok with rfl | hfc
    · refine ⟨{ sampleRate := sr,
                numberOfChannels := nc,
                channels := List.replicate nc (List.replicate 1 0) }, ?_⟩
      show (decodeBase64 (some s)).bind (fun b => decodeAudioData b sr nc) = _
      rw [hb]
      rfl
    · have hbne : bytes ≠ [] := by
        intro he
        rw [he] at hfc
        simp [normalizedBytes, bytesToInt16] at hfc
      have hpipe : decodePipeline (some s) sr nc =
          decodeAudioData bytes sr nc := by
        show (decodeBase64 (some s)).bind
          (fun b => decodeAudioData b sr nc) = _
        rw [hb]
        rfl
      exact ⟨_, hpipe.trans (decodeAudioData_of_ne_nil bytes sr nc hbne hfc)⟩

/-- C5, counterexample: the well-formed payload "QQ==" decodes to a
single byte, yet the pipeline produces no buffer — the buffer-creation
step raises on the zero-frame request — refuting the conjunct that no
step after a successful decode raises. -/
theorem c5_counterexample :
    decodeBase64 (some "QQ==") = some [65] ∧
    decodePipeline (some "QQ==") 24000 1 = none := by decide

theorem base64Char_ne_pad : ∀ n, n < 64 →
    base64Alphabet.getD n 'A' ≠ '=' := by decide

theorem base64Char_not_ws : ∀ n, n < 64 →
    isAsciiWhitespace (base64Alphabet.getD n 'A') = false := by decide

theorem b64Index_base64Char : ∀ n, n < 64 →
    b64Index (base64Alphabet.getD n 'A') = some n := by decide

theorem dropTrailingPad_no_pad (m : List Char)
    (hm : ∀ c ∈ m, c ≠ '=') : dropTrailingPad m = m := by
  unfold dropTrailingPad
  split
  · split
    · next c1 c2 rest hrev =>
        have hc1 : c1 ∈ m := by
          have : c1 ∈ m.reverse := by rw [hrev]; simp
          simpa using this
        rw [if_neg (hm c1 hc1)]
    · next c1 hrev =>
        have hc1 : c1 ∈ m := by
          have : c1 ∈ m.reverse := by rw [hrev]; simp
          simpa using this
        rw [if_neg (hm c1 hc1)]
    · rfl
  · rfl

theorem dropTrailingPad_pad2 (m : List Char)
    (h4 : (m ++ ['=', '=']).length % 4 = 0) :
    dropTrailingPad (m ++ ['=', '=']) = m := by
  unfold dropTrailingPad
  rw [if_pos h4]
  have hrev : (m ++ ['=', '=']).reverse = '=' :: '=' :: m.reverse := by
    simp
  split
  · next c1 c2 rest hrev2 =>
      rw [hrev] at hrev2
      simp only [List.cons.injEq] at hrev2
      obtain ⟨e1, e2, e3⟩ := hrev2
      rw [if_pos e1.symm, if_pos e2.symm, ← e3, List.reverse_reverse]
  · next c1 hrev2 =>
      rw [hrev] at hrev2
      exact absurd (congrArg List.length hrev2) (by simp)
  · next hrev2 =>
      rw [hrev] at hrev2
      exact absurd (congrArg List.length hrev2) (by simp)

theorem dropTrailingPad_pad1 (m : List Char)
    (hm : ∀ c ∈ m, c ≠ '=') (h4 : (m ++ ['=']).length % 4 = 0) :
    dropTrailingPad (m ++ ['=']) = m := by
  unfold dropTrailingPad
  rw [if_pos h4]
  have hrev : (m ++ ['=']).reverse = '=' :: m.reverse := by simp
  rcases hm2 : m.reverse with _ | ⟨y, ys⟩
  · have hmnil : m = [] := by simpa using congrArg List.reverse hm2
    rw [hrev, hm2]
    subst hmnil
    split
    · next c1 c2 rest hrev2 => exact absurd hrev2 (by simp)
    · next c1 hrev2 =>
        simp only [List.cons.injEq] at hrev2
        rw [if_pos hrev2.1.symm]
    · next hrev2 => exact absurd hrev2 (by simp)
  · have hy : y ∈ m := by
      have : y ∈ m.reverse := by rw [hm2]; simp
      simpa using this
    rw [hrev, hm2]
    split
    · next c1 c2 rest hrev2 =>
        simp only [List.cons.injEq] at hrev2
        obtain ⟨e1, e2, e3⟩ := hrev2
        rw [if_pos e1.symm, if_neg (e2 ▸ hm y hy), ← e2, ← e3, ← hm2,
          List.reverse_reverse]
    · next c1 hrev2 => exact absurd hrev2 (by simp)
    · next hrev2 => exact absurd hrev2 (by simp)

theorem encSextets_lt :
    ∀ bytes : List Nat, (∀ b ∈ bytes, b < 256) →
      ∀ n ∈ encSextets bytes, n < 64
  | [], _, n, hn => by simp [encSextets] at hn
  | [a], h, n, hn => by
      have ha : a < 256 := h a (by simp)
      simp [encSextets] at hn
      rcases hn with rfl | rfl <;> omega
  | [a, b], h, n, hn => by
      have ha : a < 256 := h a (by simp)
      have hb : b < 256 := h b (by simp)
      simp [encSextets] at hn
      rcases hn with rfl | rfl | rfl <;> omega
  | a :: b :: c :: rest, h, n, hn => by
      have ha : a < 256 := h a (by simp)
      have hb : b < 256 := h b (by simp)
      have hc : c < 256 := h c (by simp)
      have ih := encSextets_lt rest (fun x hx => h x (by simp [hx]))
      simp only [encSextets, List.mem_cons] at hn
      rcases hn with rfl | rfl | rfl | rfl | hn
      · omega
      · omega
      · omega
      · omega
      · exact ih n hn

theorem sextetsToBytes_encSextets :
    ∀ bytes : List Nat, (∀ b ∈ bytes, b < 256) →
      sextetsToBytes (encSextets bytes) = bytes
  | [], _ => rfl
  | [a], h => by
      have ha : a < 256 := h a (by simp)
      simp only [encSextets, sextetsToBytes, List.cons.injEq, and_true]
      omega
  | [a, b], h => by
      have ha : a < 256 := h a (by simp)
      have hb : b < 256 := h b (by simp)
      simp only [encSextets, sextetsToBytes, List.cons.injEq, and_true]
      constructor <;> omega
  | a :: b :: c :: rest, h => by
      have ha : a < 256 := h a (by simp)
      have hb : b < 256 := h b (by simp)
      have hc : c < 256 := h c (by simp)
      have ih := sextetsToBytes_encSextets rest (fun x hx => h x (by simp [hx]))
      simp only [encSextets, sextetsToBytes, ih, List.cons.injEq, and_true]
      refine ⟨?_, ?_, ?_⟩ <;> omega

theorem encSextets_length_mod :
    ∀ bytes : List Nat, (encSextets bytes).length % 4 ≠ 1
  | [] => by simp [encSextets]
  | [_] => by simp [encSextets]
  | [_, _] => by simp [encSextets]
  | a :: b :: c :: rest => by
      have ih := encSextets_length_mod rest
      simp only [encSextets, List.length_cons]
      omega

theorem base64EncodeList_eq :
    ∀ bytes : List Nat,
      base64EncodeList bytes =
        (encSextets bytes).map (fun n => base64Alphabet.getD n 'A') ++
          padOf bytes
  | [] => rfl
  | [a] => rfl
  | [a, b] => rfl
  | a :: b :: c :: rest => by
      have ih := base64EncodeList_eq rest
      have hpad : padOf (a :: b :: c :: rest) = padOf rest := by
        have hmod : (rest.length + 3) % 3 = rest.length % 3 := by omega
        simp only [padOf, List.length_cons]
        rw [show rest.length + 1 + 1 + 1 = rest.length + 3 by omega, hmod]
      simp only [base64EncodeList, encSextets, List.map_cons, ih, hpad,
        List.cons_append]

theorem base64EncodeList_length_mod :
    ∀ bytes : List Nat, (base64EncodeList bytes).length % 4 = 0
  | [] => rfl
  | [_] => by simp [base64EncodeList]
  | [_, _] => by simp [base64EncodeList]
  | a :: b :: c :: rest => by
      have ih := base64EncodeList_length_mod rest
      simp only [base64EncodeList, List.length_cons]
      omega

theorem dropTrailingPad_encode (bytes : List Nat)
    (h : ∀ b ∈ bytes, b < 256) :
    dropTrailingPad (base64EncodeList bytes) =
      (encSextets bytes).map (fun n => base64Alphabet.getD n 'A') := by
  have hm : ∀ c ∈ (encSextets bytes).map
      (fun n => base64Alphabet.getD n 'A'), c ≠ '=' := by
    intro c hc
    obtain ⟨n, hn, rfl⟩ := List.mem_map.1 hc
    exact base64Char_ne_pad n (encSextets_lt bytes h n hn)
  have h4 := base64EncodeList_length_mod bytes
  rw [base64EncodeList_eq] at h4 ⊢
  have hp : padOf bytes = [] ∨ padOf bytes = ['='] ∨
      padOf bytes = ['=', '='] := by
    unfold padOf
    split
    · right; right; rfl
    · right; left; rfl
    · left; rfl
  rcases hp with hp | hp | hp <;> rw [hp] at h4 ⊢
  · simp only [List.append_nil] at h4 ⊢
    exact dropTrailingPad_no_pad _ hm
  · exact dropTrailingPad_pad1 _ hm h4
  · exact dropTrailingPad_pad2 _ h4

theorem lookupSextets_map :
    ∀ l : List Nat, (∀ n ∈ l, n < 64) →
      lookupSextets (l.map (fun n => base64Alphabet.getD n 'A')) = some l
  | [], _ => rfl
  | n :: t, h => by
      have hn := b64Index_base64Char n (h n (by simp))
      have ih := lookupSextets_map t (fun x hx => h x (by simp [hx]))
      show (match b64Index (base64Alphabet.getD n 'A'),
          lookupSextets (t.map (fun n => base64Alphabet.getD n 'A')) with
        | some v, some vs => some (v :: vs)
        | _, _ => none) = some (n :: t)
      rw [hn, ih]

theorem filter_encode (bytes : List Nat) (h : ∀ b ∈ bytes, b < 256) :
    (base64EncodeList bytes).filter (fun c => !isAsciiWhitespace c) =
      base64EncodeList bytes := by
  apply List.filter_eq_self.2
  intro c hc
  rw [base64EncodeList_eq] at hc
  rcases List.mem_append.1 hc with h1 | h2
  · obtain ⟨n, hn, rfl⟩ := List.mem_map.1 h1
    have hlt : n < 64 := encSextets_lt bytes h n hn
    rw [base64Char_not_ws n hlt]
    rfl
  · have hc' : c = '=' := by
      unfold padOf at h2
      split at h2 <;> simp at h2 <;> tauto
    subst hc'
    rfl

/-- Round trip through the platform atob: decoding a standard base64
encoding recovers exactly the encoded bytes. -/
theorem atob_encodeBase64 (bytes : List Nat) (h : ∀ b ∈ bytes, b < 256) :
    atob (encodeBase64 bytes) = some bytes := by
  have hdata : (encodeBase64 bytes).data = base64EncodeList bytes := rfl
  simp only [atob, hdata]
  rw [filter_encode bytes h, dropTrailingPad_encode bytes h]
  rw [if_neg (by
    rw [List.length_map]
    exact encSextets_length_mod bytes)]
  rw [lookupSextets_map _ (encSextets_lt bytes h), Option.map_some',
    sextetsToBytes_encSextets bytes h]

theorem base64EncodeList_ne_nil :
    ∀ bytes : List Nat, bytes ≠ [] → base64EncodeList bytes ≠ []
  | [], h => absurd rfl h
  | [_], _ => by simp [base64EncodeList]
  | [_, _], _ => by simp [base64EncodeList]
  | _ :: _ :: _ :: _, _ => by simp [base64EncodeList]

theorem decodeBase64_encodeBase64 (bytes : List Nat) (hne : bytes ≠ [])
    (h : ∀ b ∈ bytes, b < 256) :
    decodeBase64 (some (encodeBase64 bytes)) = some bytes := by
  have hs : encodeBase64 bytes ≠ "" := by
    intro he
    have hd : (encodeBase64 bytes).data = [] := by rw [he]
    exact base64EncodeList_ne_nil bytes hne hd
  show (if encodeBase64 bytes = "" then some [] else atob (encodeBase64 bytes))
      = some bytes
  rw [if_neg hs]
  exact atob_encodeBase64 bytes h

theorem int16sToBytes_length (vs : List Int) :
    (int16sToBytes vs).length = 2 * vs.length := by
  induction vs with
  | nil => rfl
  | cons v t ih =>
      show (int16ToBytes v ++ int16sToBytes t).length = _
      simp only [List.length_append, ih, int16ToBytes, List.length_cons,
        List.length_nil, List.length_cons]
      omega

theorem int16sToBytes_lt (vs : List Int) :
    ∀ b ∈ int16sToBytes vs, b < 256 := by
  induction vs with
  | nil => simp [int16sToBytes]
  | cons v t ih =>
      intro b hb
      rcases List.mem_append.1 hb with h1 | h2
      · simp only [int16ToBytes, List.mem_cons, List.mem_singleton] at h1
        have hlt : ((v % 65536).toNat) < 65536 := by omega
        rcases h1 with rfl | h1
        · omega
        · rcases h1 with rfl | h1
          · omega
          · simp at h1
      · exact ih b h2

theorem bytesToInt16_int16sToBytes :
    ∀ vs : List Int, (∀ v ∈ vs, -32768 ≤ v ∧ v ≤ 32767) →
      bytesToInt16 (int16sToBytes vs) = vs
  | [], _ => rfl
  | v :: t, h => by
      obtain ⟨h1, h2⟩ := h v (by simp)
      have ih := bytesToInt16_int16sToBytes t (fun x hx => h x (by simp [hx]))
      show bytesToInt16 ((v % 65536).toNat % 256 :: (v % 65536).toNat / 256 ::
        int16sToBytes t) = v :: t
      simp only [bytesToInt16, ih, List.cons.injEq, and_true]
      have hu : ((v % 65536).toNat) < 65536 := by omega
      simp only [toInt16]
      split <;> omega

theorem range_map_div (l : List Int) :
    (List.range l.length).map (fun i => ((l.getD i 0 : ℤ) : ℚ) / 32768) =
      l.map (fun s : ℤ => (s : ℚ) / 32768) := by
  apply List.ext_getElem?_iff.mpr
  intro i
  rw [List.getElem?_map, List.getElem?_map]
  by_cases hi : i < l.length
  · rw [List.getElem?_range hi, List.getElem?_eq_getElem hi]
    simp only [Option.map_some']
    rw [List.getD_eq_getElem?_getD, List.getElem?_eq_getElem hi]
    rfl
  · rw [List.getElem?_eq_none (by simpa using hi),
      List.getElem?_eq_none (by omega)]
    rfl

/-- The mono (numChannels = 1) decode of a non-empty even-length buffer:
one channel holding every 16-bit sample divided by 32768. -/
theorem decodeAudioData_mono (data : List Nat) (sr : Nat) (hne : data ≠ [])
    (hev : data.length % 2 = 0) :
    decodeAudioData data sr 1 =
      some { sampleRate := sr
             numberOfChannels := 1
             channels :=
               [(bytesToInt16 data).map (fun s : ℤ => (s : ℚ) / 32768)] } := by
  have hlen0 : data.length ≠ 0 := by simpa [List.length_eq_zero] using hne
  have hfc : (bytesToInt16 (normalizedBytes data)).length / 1 ≠ 0 := by
    rw [Nat.div_one, bytesToInt16_length, normalizedBytes_length]
    omega
  rw [decodeAudioData_of_ne_nil _ _ _ hne hfc, Option.some.injEq]
  have hnorm : normalizedBytes data = data := by
    unfold normalizedBytes
    rw [if_pos hev]
  rw [hnorm]
  rw [AudioBuffer.mk.injEq]
  refine ⟨rfl, rfl, ?_⟩
  rw [show List.range 1 = [0] from rfl, List.map_cons, List.map_nil,
    Nat.div_one]
  have hbody : (List.range (bytesToInt16 data).length).map (fun i =>
      (((bytesToInt16 data).getD (i * 1 + 0) 0 : ℤ) : ℚ) / 32768) =
      (List.range (bytesToInt16 data).length).map (fun i =>
      (((bytesToInt16 data).getD i 0 : ℤ) : ℚ) / 32768) := by
    apply List.map_congr_left
    intro i _
    rw [Nat.mul_one, Nat.add_zero]
  rw [hbody, range_map_div]

/-- C5 witness: concrete malformed and well-formed inputs. -/
theorem c5_witness :
    decodePipeline (some "QQ!") 24000 1 = none ∧
    decodePipeline (some "AAAAA") 24000 1 = none ∧
    decodePipeline (some "A===") 24000 1 = none ∧
    decodePipeline (some "QUJD") 24000 1 =
      decodeAudioData [65, 66, 67] 24000 1 ∧
    (∃ bytes, decodeBase64 (some "QQ") = some bytes) ∧
    ∃ buf, decodePipeline (some "QUJD") 24000 1 = some buf :=
  ⟨(c5_malformed "QQ!" 24000 1).1 (by decide),
   (c5_malformed "AAAAA" 24000 1).2.1 (by decide),
   (c5_malformed "A===" 24000 1).2.2.1 (by decide),
   (c5_malformed "QUJD" 24000 1).2.2.2.1 [65, 66, 67] (by decide),
   (c5_malformed "QQ" 24000 1).2.2.2.2.1 (by decide) (by decide),
   (c5_malformed "QUJD" 24000 1).2.2.2.2.2 [65, 66, 67] (by decide)
     (Or.inr (by decide))⟩

/-- C6, counterexample: at the empty sequence V the round-trip yields one
silent frame, not `length V = 0` frames, so the claim quantified over
every sequence fails at `V = []`. -/
theorem c6_counterexample :
    (decodePipeline (some (encodeBase64 (int16sToBytes []))) 24000 1).map
        (fun buf => (buf.channels.getD 0 []).length) ≠
      some (([] : List Int).length) := by decide

/-- C6 (amended to non-empty sequences): for every non-empty sequence V of
signed 16-bit integers, encoding V as little-endian bytes, base64-encoding,
then decoding through the pipeline at channel count 1 reproduces every
sample exactly as `V[i] / 32768` (hence within epsilon `1e-6`), with frame
count equal to the length of V. -/
theorem c6_roundtrip (vs : List Int) (sr : Nat) (hne : vs ≠ [])
    (hr : ∀ v ∈ vs, -32768 ≤ v ∧ v ≤ 32767) :
    decodePipeline (some (encodeBase64 (int16sToBytes vs))) sr 1 =
      some { sampleRate := sr
             numberOfChannels := 1
             channels := [vs.map (fun v : ℤ => (v : ℚ) / 32768)] } ∧
    ∀ buf, decodePipeline (some (encodeBase64 (int16sToBytes vs))) sr 1 =
        some buf →
      (buf.channels.getD 0 []).length = vs.length ∧
      ∀ i, i < vs.length →
        |(buf.channels.getD 0 []).getD i 0 - ((vs.getD i 0 : ℤ) : ℚ) / 32768| ≤
          1 / 1000000 := by
  have hbne : int16sToBytes vs ≠ [] := by
    intro h
    have := int16sToBytes_length vs
    rw [h] at this
    simp at this
    exact hne this
  have hblt := int16sToBytes_lt vs
  have hbev : (int16sToBytes vs).length % 2 = 0 := by
    rw [int16sToBytes_length]
    omega
  have hdec := decodeBase64_encodeBase64 (int16sToBytes vs) hbne hblt
  have hmain : decodePipeline (some (encodeBase64 (int16sToBytes vs))) sr 1 =
      some { sampleRate := sr
             numberOfChannels := 1
             channels := [vs.map (fun v : ℤ => (v : ℚ) / 32768)] } := by
    show ((decodeBase64 (some (encodeBase64 (int16sToBytes vs)))).bind
      (fun bytes => decodeAudioData bytes sr 1)) = _
    rw [hdec]
    show decodeAudioData (int16sToBytes vs) sr 1 = _
    rw [decodeAudioData_mono _ _ hbne hbev]
    rw [bytesToInt16_int16sToBytes vs hr]
  refine ⟨hmain, ?_⟩
  intro buf hbuf
  rw [hmain, Option.some.injEq] at hbuf
  subst hbuf
  constructor
  · show ((([vs.map (fun v : ℤ => (v : ℚ) / 32768)]).getD 0 []).length) = _
    rw [List.getD_cons_zero, List.length_map]
  · intro i hi
    show |((([vs.map (fun v : ℤ => (v : ℚ) / 32768)]).getD 0 []).getD i 0) -
      ((vs.getD i 0 : ℤ) : ℚ) / 32768| ≤ 1 / 1000000
    rw [List.getD_cons_zero]
    have hmap : ((vs.map (fun v : ℤ => (v : ℚ) / 32768)).getD i 0) =
        ((vs.getD i 0 : ℤ) : ℚ) / 32768 := by
      rw [List.getD_eq_getElem?_getD, List.getElem?_map,
        List.getElem?_eq_getElem hi, Option.map_some',
        List.getD_eq_getElem?_getD, List.getElem?_eq_getElem hi]
      rfl
    rw [hmap, sub_self, abs_zero]
    norm_num

/-- C6 witness at a concrete two-sample sequence. -/
theorem c6_witness :
    decodePipeline (some (encodeBase64 (int16sToBytes [1, -32768]))) 24000 1 =
      some { sampleRate := 24000
             numberOfChannels := 1
             channels := [([1, -32768] : List Int).map
               (fun v : ℤ => (v : ℚ) / 32768)] } :=
  (c6_roundtrip [1, -32768] 24000 (by decide) (by decide)).1

end AICaption
